import Mathlib

/-!
Verification of the DreamRecorder entry store, filter/group engine, tag
operations, persistence round trip and analysis fallback, against a shallow
embedding of the TypeScript source (src/App.tsx, src/components/DreamCard.tsx,
src/services/geminiService.ts, src/types.ts).

Conventions of the embedding:
* `DreamEntry` mirrors the interface in src/types.ts.  The `audioBlob` field is
  omitted: the application never sets it and it is not part of the persisted
  JSON form.  JS numbers that the app only ever holds as non-negative integers
  (`timestamp` from Date.now(), `lucidityScore`) are embedded as `Nat`.
* The locale date formatter `toLocaleDateString(undefined, \x7bweekday, month,
  day\x7d)` is a platform function; it is embedded as an abstract parameter
  `dateLabel : Nat → String` over which the theorems quantify.
* JS `String.prototype.toLowerCase` is embedded as `lowerStr` (character-wise
  lower casing) and `String.prototype.includes` as `strContains` (substring
  test on the character lists).
-/

/-- Mirror of `DreamEntry` from src/types.ts (without the never-used
`audioBlob`). `isProcessing` is the "pending" flag of the spec. -/
structure DreamEntry where
  id : String
  timestamp : Nat
  audioBase64 : Option String
  transcription : String
  tags : List String
  mood : String
  lucidityScore : Nat
  isProcessing : Bool
  generatedImage : Option String
deriving DecidableEq, Repr

/-- Mirror of `DreamAnalysisResult` from src/types.ts. -/
structure DreamAnalysisResult where
  transcription : String
  tags : List String
  mood : String
  lucidityScore : Nat
deriving DecidableEq, Repr

/-- Embedding of JS `toLowerCase` on the logical character list. -/
def lowerStr (s : String) : String := ⟨s.data.map Char.toLower⟩

/-- `subOccurs need hay` holds when `need` occurs contiguously in `hay`. -/
def subOccurs (need : List Char) : List Char → Bool
  | [] => need.isEmpty
  | c :: rest => need.isPrefixOf (c :: rest) || subOccurs need rest

/-- Embedding of JS `s.includes(sub)`: `sub` occurs contiguously in `s`. -/
def strContains (s sub : String) : Bool := subOccurs sub.data s.data

/-- The filtering step of `groupedDreams` (src/App.tsx lines 123-132):
the query is lower-cased once, an empty (falsy) query keeps everything,
otherwise an entry is kept when the query occurs in the lower-cased
transcription, the lower-cased space-joined tags, or the lower-cased
locale-formatted date string of the entry's timestamp. -/
def filterDreams (dateLabel : Nat → String) (searchQuery : String)
    (dreams : List DreamEntry) : List DreamEntry :=
  let query := lowerStr searchQuery
  dreams.filter fun d =>
    if query = "" then true
    else
      let dateStr := lowerStr (dateLabel d.timestamp)
      let tagsStr := lowerStr (String.intercalate " " d.tags)
      let text := lowerStr d.transcription
      strContains text query || strContains tagsStr query || strContains dateStr query

/-- The filtering predicate as the specification words it: the query is empty,
or the lower-cased query is a substring of the lower-cased transcription, or of
the lower-cased space-joined tag list, or of the lower-cased locale-formatted
date string. -/
def specKeeps (dateLabel : Nat → String) (q : String) (d : DreamEntry) : Bool :=
  q == "" ||
  strContains (lowerStr d.transcription) (lowerStr q) ||
  strContains (lowerStr (String.intercalate " " d.tags)) (lowerStr q) ||
  strContains (lowerStr (dateLabel d.timestamp)) (lowerStr q)

theorem lowerStr_eq_empty_iff (s : String) : lowerStr s = "" ↔ s = "" := by
  cases s with
  | mk l =>
    cases l with
    | nil => simp [lowerStr]
    | cons c cs =>
      constructor
      · intro h
        exact absurd (congrArg String.data h) (by simp [lowerStr])
      · intro h
        exact absurd (congrArg String.data h) (by simp)

/-- C1: the filter keeps exactly the entries satisfying the spec's predicate
(empty query, or case-insensitive substring of transcription, joined tags, or
formatted date), and in particular the empty query keeps every entry. -/
theorem filterDreams_eq_spec (dateLabel : Nat → String) (q : String)
    (ds : List DreamEntry) :
    filterDreams dateLabel q ds = ds.filter (specKeeps dateLabel q) ∧
    filterDreams dateLabel "" ds = ds := by
  constructor
  · simp only [filterDreams]
    refine List.filter_congr fun d _ => ?_
    by_cases hq : q = ""
    · subst hq
      simp [specKeeps, lowerStr]
    · have hlq : lowerStr q ≠ "" := fun h => hq ((lowerStr_eq_empty_iff q).mp h)
      have hbeq : (q == "") = false := by simp [hq]
      simp [specKeeps, if_neg hlq, hbeq]
  · simp only [filterDreams]
    have h0 : lowerStr "" = "" := rfl
    simp [h0]

/-- One display group of the grouping step: a date label and the entries
carrying it (the `{ date, dreams }` accumulator records of src/App.tsx). -/
structure DreamGroup where
  date : String
  dreams : List DreamEntry
deriving DecidableEq, Repr

/-- One reduce step of the grouping (src/App.tsx lines 134-148): look for the
first group whose `date` equals the entry's date key; push the entry at its
end when found, otherwise push a fresh one-entry group at the end. -/
def insertIntoGroups (k : String) (d : DreamEntry) :
    List DreamGroup → List DreamGroup
  | [] => [⟨k, [d]⟩]
  | g :: gs =>
      if g.date = k then ⟨g.date, g.dreams ++ [d]⟩ :: gs
      else g :: insertIntoGroups k d gs

/-- The grouping step of `groupedDreams` (src/App.tsx lines 134-148): a single
left-to-right reduce over the (already filtered) entries starting from the
empty accumulator. -/
def groupDreams (dateLabel : Nat → String) (ds : List DreamEntry) :
    List DreamGroup :=
  ds.foldl (fun acc d => insertIntoGroups (dateLabel d.timestamp) d acc) []

/-- The entries held by the first group carrying label `k` (empty when no
group does).  Specification-side reading device for the grouping proofs. -/
def groupLookup : List DreamGroup → String → List DreamEntry
  | [], _ => []
  | g :: gs, k => if g.date = k then g.dreams else groupLookup gs k

/-- The date labels in first-seen order with later duplicates dropped, as the
specification describes the order of the produced groups. -/
def firstSeen : List String → List String
  | [] => []
  | x :: xs => x :: (firstSeen xs).filter (fun y => y != x)

theorem insertIntoGroups_map_date (k : String) (d : DreamEntry)
    (G : List DreamGroup) :
    (insertIntoGroups k d G).map DreamGroup.date =
      if k ∈ G.map DreamGroup.date then G.map DreamGroup.date
      else G.map DreamGroup.date ++ [k] := by
  induction G with
  | nil => simp [insertIntoGroups]
  | cons g gs ih =>
    by_cases h : g.date = k
    · simp [insertIntoGroups, h]
    · have hne : k ≠ g.date := fun e => h e.symm
      simp [insertIntoGroups, h, ih, hne]
      split <;> rfl

theorem groupLookup_insertIntoGroups (k k' : String) (d : DreamEntry)
    (G : List DreamGroup) :
    groupLookup (insertIntoGroups k d G) k' =
      if k' = k then groupLookup G k' ++ [d] else groupLookup G k' := by
  induction G with
  | nil =>
    by_cases h : k' = k
    · simp [insertIntoGroups, groupLookup, h]
    · have : k ≠ k' := fun e => h e.symm
      simp [insertIntoGroups, groupLookup, h, this]
  | cons g gs ih =>
    by_cases hg : g.date = k
    · by_cases hk : k' = k
      · simp [insertIntoGroups, groupLookup, hg, hk]
      · have hk2 : k ≠ k' := fun e => hk e.symm
        simp [insertIntoGroups, groupLookup, hg, hk, hk2]
    · by_cases hgk : g.date = k'
      · have hk : k' ≠ k := fun e => hg (e ▸ hgk)
        simp [insertIntoGroups, groupLookup, hg, hgk, hk]
      · simp [insertIntoGroups, groupLookup, hg, hgk, ih]

theorem groupLookup_foldl (key : DreamEntry → String) (ds : List DreamEntry)
    (G : List DreamGroup) (k : String) :
    groupLookup (ds.foldl (fun acc d => insertIntoGroups (key d) d acc) G) k =
      groupLookup G k ++ ds.filter (fun d => key d == k) := by
  induction ds generalizing G with
  | nil => simp
  | cons d ds ih =>
    simp only [List.foldl_cons, ih, groupLookup_insertIntoGroups,
      List.filter_cons]
    by_cases h : k = key d
    · have : (key d == k) = true := by simp [h]
      simp [h, this]
    · have : (key d == k) = false := by simp [Ne.symm h]
      simp [h, this]

theorem insertIntoGroups_dreams_ne_nil (k : String) (d : DreamEntry)
    (G : List DreamGroup) (hG : ∀ g ∈ G, g.dreams ≠ []) :
    ∀ g ∈ insertIntoGroups k d G, g.dreams ≠ [] := by
  induction G with
  | nil =>
    intro g hg
    simp [insertIntoGroups] at hg
    subst hg; simp
  | cons g0 gs ih =>
    intro g hg
    by_cases h : g0.date = k
    · simp [insertIntoGroups, h] at hg
      rcases hg with hg | hg
      · subst hg; simp
      · exact hG g (by simp [hg])
    · simp [insertIntoGroups, h] at hg
      rcases hg with hg | hg
      · subst hg; exact hG g (by simp)
      · exact ih (fun g' hg' => hG g' (by simp [hg'])) g hg

theorem foldl_dreams_ne_nil (key : DreamEntry → String) (ds : List DreamEntry)
    (G : List DreamGroup) (hG : ∀ g ∈ G, g.dreams ≠ []) :
    ∀ g ∈ ds.foldl (fun acc d => insertIntoGroups (key d) d acc) G,
      g.dreams ≠ [] := by
  induction ds generalizing G with
  | nil => simpa using hG
  | cons d ds ih =>
    intro g hg
    exact ih _ (insertIntoGroups_dreams_ne_nil (key d) d G hG) g hg

theorem foldl_map_date_nodup (key : DreamEntry → String) (ds : List DreamEntry)
    (G : List DreamGroup) (hG : (G.map DreamGroup.date).Nodup) :
    ((ds.foldl (fun acc d => insertIntoGroups (key d) d acc) G).map
      DreamGroup.date).Nodup := by
  induction ds generalizing G with
  | nil => simpa using hG
  | cons d ds ih =>
    refine ih _ ?_
    rw [insertIntoGroups_map_date]
    by_cases h : key d ∈ G.map DreamGroup.date
    · simpa [h] using hG
    · simp only [h, if_neg]
      simp [List.nodup_append, hG, h]


theorem foldl_map_date (key : DreamEntry → String) (ds : List DreamEntry)
    (G : List DreamGroup) :
    (ds.foldl (fun acc d => insertIntoGroups (key d) d acc) G).map
        DreamGroup.date =
      G.map DreamGroup.date ++
        (firstSeen (ds.map key)).filter
          (fun k => !decide (k ∈ G.map DreamGroup.date)) := by
  induction ds generalizing G with
  | nil => simp [firstSeen]
  | cons d ds ih =>
    simp only [List.foldl_cons, ih, insertIntoGroups_map_date, List.map_cons,
      firstSeen]
    by_cases hmem : key d ∈ G.map DreamGroup.date
    · have hkd : (!decide (key d ∈ G.map DreamGroup.date)) = false := by
        simp [hmem]
      simp only [if_pos hmem, List.filter_cons, hkd, if_neg Bool.false_ne_true,
        List.filter_filter]
      congr 1
      refine List.filter_congr fun y _ => ?_
      by_cases hy : y ∈ G.map DreamGroup.date
      · simp [hy]
      · have : y ≠ key d := fun e => hy (e ▸ hmem)
        simp [hy, this]
    · have hkd : (!decide (key d ∈ G.map DreamGroup.date)) = true := by
        simp [hmem]
      simp only [if_neg hmem, List.filter_cons, hkd, if_pos rfl,
        List.filter_filter, List.append_assoc, List.singleton_append]
      congr 2
      refine List.filter_congr fun y _ => ?_
      by_cases hy : y ∈ G.map DreamGroup.date <;> by_cases he : y = key d <;>
        simp [hy, he, List.mem_append]

theorem groupLookup_ne_nil_mem (G : List DreamGroup) (k : String)
    (h : groupLookup G k ≠ []) : ∃ g ∈ G, g.date = k := by
  induction G with
  | nil => simp [groupLookup] at h
  | cons g gs ih =>
    by_cases hg : g.date = k
    · exact ⟨g, by simp, hg⟩
    · simp only [groupLookup, if_neg hg] at h
      obtain ⟨g2, hg2, e⟩ := ih h
      exact ⟨g2, by simp [hg2], e⟩

theorem mem_dreams_eq_groupLookup (G : List DreamGroup)
    (hn : (G.map DreamGroup.date).Nodup) (g : DreamGroup) (hg : g ∈ G) :
    g.dreams = groupLookup G g.date := by
  induction G with
  | nil => simp at hg
  | cons g0 gs ih =>
    rw [List.map_cons, List.nodup_cons] at hn
    rcases List.mem_cons.mp hg with rfl | hg2
    · simp [groupLookup]
    · have hne : g0.date ≠ g.date := by
        intro e
        exact hn.1 (e ▸ List.mem_map.mpr ⟨g, hg2, rfl⟩)
      simp only [groupLookup, if_neg hne]
      exact ih hn.2 hg2

/-- C2: every group produced by the grouping step is non-empty; each group
holds exactly the input entries whose date label equals the group's label, in
input order; every input entry has a group carrying its label (so, with the
labels being distinct across groups, it lies in exactly the matching group);
no date label appears as two separate groups; and the group order is the
first-seen order of the labels in a single left-to-right pass over the
input. -/
theorem groupDreams_spec (dateLabel : Nat → String) (ds : List DreamEntry) :
    (∀ g ∈ groupDreams dateLabel ds, g.dreams ≠ []) ∧
    (∀ g ∈ groupDreams dateLabel ds,
      g.dreams = ds.filter (fun d => dateLabel d.timestamp == g.date)) ∧
    (∀ d ∈ ds,
      ∃ g ∈ groupDreams dateLabel ds, g.date = dateLabel d.timestamp) ∧
    ((groupDreams dateLabel ds).map DreamGroup.date).Nodup ∧
    (groupDreams dateLabel ds).map DreamGroup.date =
      firstSeen (ds.map fun d => dateLabel d.timestamp) := by
  have hnodup :
      ((groupDreams dateLabel ds).map DreamGroup.date).Nodup :=
    foldl_map_date_nodup (fun d => dateLabel d.timestamp) ds [] (by simp)
  refine ⟨?_, ?_, ?_, hnodup, ?_⟩
  · exact foldl_dreams_ne_nil (fun d => dateLabel d.timestamp) ds [] (by simp)
  · intro g hg
    have h1 := mem_dreams_eq_groupLookup _ hnodup g hg
    have h2 : groupLookup (groupDreams dateLabel ds) g.date =
        groupLookup [] g.date ++
          ds.filter (fun d => dateLabel d.timestamp == g.date) :=
      groupLookup_foldl (fun d => dateLabel d.timestamp) ds [] g.date
    rw [h1, h2]
    simp [groupLookup]
  · intro d hd
    apply groupLookup_ne_nil_mem
    have h2 : groupLookup (groupDreams dateLabel ds) (dateLabel d.timestamp) =
        groupLookup [] (dateLabel d.timestamp) ++
          ds.filter (fun e => dateLabel e.timestamp == dateLabel d.timestamp) :=
      groupLookup_foldl (fun e => dateLabel e.timestamp) ds []
        (dateLabel d.timestamp)
    rw [h2]
    simp only [groupLookup, List.nil_append]
    intro hnil
    have hmem : d ∈ ds.filter
        (fun e => dateLabel e.timestamp == dateLabel d.timestamp) := by
      simp [List.mem_filter, hd]
    rw [hnil] at hmem
    simp at hmem
  · have h3 := foldl_map_date (fun d => dateLabel d.timestamp) ds []
    simpa using h3

/-- The optimistic insert of `handleRecordingComplete` (src/App.tsx line 76):
`setDreams(prev => [newDream, ...prev])`, a prepend. -/
def insertDream (nd : DreamEntry) (ds : List DreamEntry) : List DreamEntry :=
  nd :: ds

/-- The placeholder entry built by `handleRecordingComplete`
(src/App.tsx lines 63-72). `i` stands for `Date.now().toString()` and `ts`
for the second `Date.now()` call. -/
def mkNewDream (i : String) (ts : Nat) (audio : String) : DreamEntry :=
  { id := i, timestamp := ts, audioBase64 := some audio,
    transcription := "Processing...", tags := [], mood := "",
    lucidityScore := 0, isProcessing := true, generatedImage := none }

/-- The completion step of `handleRecordingComplete` (src/App.tsx lines 83-90):
spread the analysis result over the entry with the placeholder's id and clear
`isProcessing`; every other entry is returned unchanged. -/
def applyAnalysis (i : String) (a : DreamAnalysisResult)
    (ds : List DreamEntry) : List DreamEntry :=
  ds.map fun d =>
    if d.id = i then
      { d with
        transcription := a.transcription
        tags := a.tags
        mood := a.mood
        lucidityScore := a.lucidityScore
        isProcessing := false }
    else d

/-- `handleUpdateDream` (src/App.tsx lines 53-55): replace the entry whose id
matches the updated entry's id, leave everything else in place. -/
def handleUpdateDream (u : DreamEntry) (ds : List DreamEntry) :
    List DreamEntry :=
  ds.map fun d => if d.id = u.id then u else d

theorem map_ite_eq_self {α : Type} (p : α → Prop) [DecidablePred p]
    (f : α → α) (l : List α) (h : ∀ x ∈ l, ¬ p x) :
    l.map (fun x => if p x then f x else x) = l := by
  induction l with
  | nil => rfl
  | cons x l ih =>
    simp only [List.map_cons, if_neg (h x (by simp))]
    rw [ih fun y hy => h y (by simp [hy])]

theorem update_found (u : DreamEntry) :
    ∀ ds : List DreamEntry, (ds.map DreamEntry.id).Nodup →
      (∃ d ∈ ds, d.id = u.id) →
      ∃ pre d0 post, ds = pre ++ d0 :: post ∧ d0.id = u.id ∧
        (∀ d ∈ pre, d.id ≠ u.id) ∧ (∀ d ∈ post, d.id ≠ u.id) ∧
        handleUpdateDream u ds = pre ++ u :: post := by
  intro ds
  induction ds with
  | nil => intro _ hex; simp at hex
  | cons d ds ih =>
    intro hnodup hex
    rw [List.map_cons, List.nodup_cons] at hnodup
    by_cases hd : d.id = u.id
    · have habsent : ∀ x ∈ ds, x.id ≠ u.id := by
        intro x hx e
        have hm : x.id ∈ ds.map DreamEntry.id := List.mem_map.mpr ⟨x, hx, rfl⟩
        rw [e, ← hd] at hm
        exact hnodup.1 hm
      refine ⟨[], d, ds, by simp, hd, by simp, habsent, ?_⟩
      simp only [handleUpdateDream, List.map_cons, if_pos hd,
        List.nil_append]
      exact congrArg (u :: ·) (map_ite_eq_self _ _ ds habsent)
    · obtain ⟨x, hx, e⟩ := hex
      rcases List.mem_cons.mp hx with rfl | hx2
      · exact absurd e hd
      obtain ⟨pre, d0, post, hsplit, hid, hpre, hpost, heq⟩ :=
        ih hnodup.2 ⟨x, hx2, e⟩
      refine ⟨d :: pre, d0, post, by simp [hsplit], hid, ?_, hpost, ?_⟩
      · intro y hy
        rcases List.mem_cons.mp hy with rfl | hy2
        · exact hd
        · exact hpre y hy2
      · simp only [handleUpdateDream, List.map_cons, if_neg hd,
          List.cons_append]
        exact congrArg (d :: ·) heq

/-- C6: updating by id is a frame-preserving point update: when no entry has
the id the store is completely unchanged; when one does (ids being unique in
the store, the invariant of C8), exactly that entry is replaced by the patched
entry and the prefix and suffix around it — hence every other entry, the
length and the order — are untouched. -/
theorem handleUpdateDream_spec (u : DreamEntry) (ds : List DreamEntry)
    (hnodup : (ds.map DreamEntry.id).Nodup) :
    ((∀ d ∈ ds, d.id ≠ u.id) → handleUpdateDream u ds = ds) ∧
    ((∃ d ∈ ds, d.id = u.id) →
      ∃ pre d0 post, ds = pre ++ d0 :: post ∧ d0.id = u.id ∧
        (∀ d ∈ pre, d.id ≠ u.id) ∧ (∀ d ∈ post, d.id ≠ u.id) ∧
        handleUpdateDream u ds = pre ++ u :: post) :=
  ⟨fun h => map_ite_eq_self _ _ ds h, fun hex => update_found u ds hnodup hex⟩

/-- C4: the recording-completion path inserts exactly one new entry, prepended
(the store stays newest-first); that entry carries `isProcessing = true` from
insertion until the analysis resolves, and once the analysis result (real or
fallback, `a` ranges over both) is applied, the same entry — found by its
fresh id — has `isProcessing = false`, while the rest of the store is exactly
the previous store. -/
theorem handleRecordingComplete_spec (i : String) (ts : Nat) (audio : String)
    (a : DreamAnalysisResult) (ds : List DreamEntry)
    (hfresh : ∀ d ∈ ds, d.id ≠ i) :
    insertDream (mkNewDream i ts audio) ds = mkNewDream i ts audio :: ds ∧
    (insertDream (mkNewDream i ts audio) ds).length = ds.length + 1 ∧
    (mkNewDream i ts audio).isProcessing = true ∧
    mkNewDream i ts audio ∈ insertDream (mkNewDream i ts audio) ds ∧
    applyAnalysis i a (insertDream (mkNewDream i ts audio) ds) =
      { mkNewDream i ts audio with
        transcription := a.transcription
        tags := a.tags
        mood := a.mood
        lucidityScore := a.lucidityScore
        isProcessing := false } :: ds := by
  refine ⟨rfl, by simp [insertDream], rfl, by simp [insertDream], ?_⟩
  simp only [insertDream, applyAnalysis, List.map_cons]
  rw [if_pos (show (mkNewDream i ts audio).id = i from rfl)]
  exact congrArg (_ :: ·) (map_ite_eq_self _ _ ds hfresh)

/-- Embedding of JS `trim`: drop whitespace from both ends of the string. -/
def trimStr (s : String) : String :=
  ⟨((s.data.dropWhile Char.isWhitespace).reverse.dropWhile
      Char.isWhitespace).reverse⟩

/-- `addTag` of src/components/DreamCard.tsx (lines 54-64): when the trimmed
input is non-empty (JS truthiness of the trimmed string), append it to the
tag list; no deduplication of any kind. -/
def addTag (d : DreamEntry) (t : String) : DreamEntry :=
  if trimStr t ≠ "" then { d with tags := d.tags ++ [trimStr t] } else d

/-- `removeTag` of src/components/DreamCard.tsx (lines 66-74): keep exactly
the tags different from the removed label. -/
def removeTag (d : DreamEntry) (t : String) : DreamEntry :=
  { d with tags := d.tags.filter (fun x => x != t) }

/-- C9: tag removal is idempotent and removing an absent tag is a no-op on
the whole entry, while tag addition performs no deduplication: a non-blank
tag is appended unconditionally, so adding an already present tag raises its
number of occurrences by one and the duplicate is kept. -/
theorem tagOps_spec (d : DreamEntry) (t : String) :
    removeTag (removeTag d t) t = removeTag d t ∧
    (t ∉ d.tags → removeTag d t = d) ∧
    (trimStr t ≠ "" → (addTag d t).tags = d.tags ++ [trimStr t]) ∧
    (trimStr t ≠ "" → trimStr t ∈ d.tags →
      (addTag d t).tags.count (trimStr t) = d.tags.count (trimStr t) + 1) := by
  obtain ⟨i, ts, au, tr, tg, mo, lu, pr, g⟩ := d
  refine ⟨?_, ?_, ?_, ?_⟩
  · simp [removeTag, List.filter_filter]
  · intro h
    simp only [removeTag]
    congr 1
    refine List.filter_eq_self.mpr fun x hx => ?_
    have : x ≠ t := fun e => h (e ▸ hx)
    simp [this]
  · intro h
    simp [addTag, h]
  · intro h _
    simp [addTag, h, List.count_append]

/-- C10: a single removal of tag `t` removes all occurrences of `t` at once
— the result is exactly the filtered tag list, `t` no longer occurs, the
remaining tags are a sublist of the original (their relative order is
preserved), and the occurrence count of every other label is unchanged. -/
theorem removeTag_all_spec (d : DreamEntry) (t : String) :
    (removeTag d t).tags = d.tags.filter (fun x => x != t) ∧
    t ∉ (removeTag d t).tags ∧
    List.Sublist (removeTag d t).tags d.tags ∧
    (∀ x, x ≠ t → (removeTag d t).tags.count x = d.tags.count x) := by
  refine ⟨rfl, ?_, ?_, ?_⟩
  · intro hmem
    have h := List.mem_filter.mp hmem
    simp at h
  · exact List.filter_sublist _
  · intro x hx
    simp only [removeTag]
    exact List.count_filter (by simp [hx])

/-- Outcome of the `generateContent` request as `analyzeDreamAudio` sees it:
the promise either rejects (`fault`) or resolves carrying an optional
`response.text`. -/
inductive GenerateOutcome where
  | fault : GenerateOutcome
  | resolved : Option String → GenerateOutcome

/-- A word character of the `\w` regex class. -/
def isWordChar (c : Char) : Bool := c.isAlphanum || c == '_'

/-- The `cleanBase64` helper of src/services/geminiService.ts: strip one
leading `data:audio/<word>+;base64,` prefix when the string has one. -/
def cleanBase64 (b64 : String) : String :=
  if b64.startsWith "data:audio/" then
    let rest := b64.drop 11
    let sub := rest.takeWhile isWordChar
    let after := rest.dropWhile isWordChar
    if sub.length > 0 && after.startsWith ";base64," then after.drop 8
    else b64
  else b64

/-- The fallback record of the catch branch of `analyzeDreamAudio`. -/
def fallbackAnalysis : DreamAnalysisResult :=
  { transcription := "Analysis failed. Please try again later.",
    tags := ["Error"], mood := "Unknown", lucidityScore := 0 }

/-- `analyzeDreamAudio` of src/services/geminiService.ts (lines 11-67).  The
network call and the JSON parse of the response text are oracles (`net`,
`parse`); every failure path of the try/catch — rejected request, missing
response text, empty response text (both falsy, so the `if (!text) throw`
fires), unparseable text — lands in the catch branch and yields
`fallbackAnalysis`. -/
def analyzeDreamAudio (net : String → String → GenerateOutcome)
    (parse : String → Option DreamAnalysisResult)
    (audioBase64 mimeType : String) : DreamAnalysisResult :=
  match net (cleanBase64 audioBase64) mimeType with
  | .fault => fallbackAnalysis
  | .resolved none => fallbackAnalysis
  | .resolved (some t) =>
    if t = "" then fallbackAnalysis
    else
      match parse t with
      | none => fallbackAnalysis
      | some r => r

/-- C5: `analyzeDreamAudio` never propagates a fault: it is a total function
whose result is either the successfully parsed analysis of the response text,
or — on a rejected request, an absent or empty response, or unparseable text
— exactly the fallback record with the fixed error sentinel transcription,
tags `["Error"]`, mood `"Unknown"` and score `0`. -/
theorem analyzeDreamAudio_total (net : String → String → GenerateOutcome)
    (parse : String → Option DreamAnalysisResult)
    (audioBase64 mimeType : String) :
    fallbackAnalysis =
      { transcription := "Analysis failed. Please try again later.",
        tags := ["Error"], mood := "Unknown", lucidityScore := 0 } ∧
    (analyzeDreamAudio net parse audioBase64 mimeType = fallbackAnalysis ∨
      ∃ t r, net (cleanBase64 audioBase64) mimeType =
          GenerateOutcome.resolved (some t) ∧
        parse t = some r ∧
        analyzeDreamAudio net parse audioBase64 mimeType = r) := by
  refine ⟨rfl, ?_⟩
  cases h : net (cleanBase64 audioBase64) mimeType with
  | fault =>
    left
    simp [analyzeDreamAudio, h]
  | resolved o =>
    cases o with
    | none =>
      left
      simp [analyzeDreamAudio, h]
    | some t =>
      by_cases ht : t = ""
      · left
        simp [analyzeDreamAudio, h, ht]
      · cases hp : parse t with
        | none =>
          left
          simp [analyzeDreamAudio, h, ht, hp]
        | some r =>
          right
          exact ⟨t, r, rfl, hp, by simp [analyzeDreamAudio, h, ht, hp]⟩

/-- JSON values, the shape of what `JSON.stringify` writes under the
`dream_journal` key and `JSON.parse` gives back.  The only numbers the app
persists are `Date.now()` timestamps and lucidity scores, embedded as `Nat`. -/
inductive Json where
  | null : Json
  | bool : Bool → Json
  | num : Nat → Json
  | str : String → Json
  | arr : List Json → Json
  | obj : List (String × Json) → Json

/-- First value stored under key `k` in a JSON object's field list. -/
def lookupField : List (String × Json) → String → Option Json
  | [], _ => none
  | (k, v) :: rest, k2 => if k = k2 then some v else lookupField rest k2

/-- Read a JSON value as a string. -/
def asStr : Json → Option String
  | .str s => some s
  | _ => none

/-- Read a list of JSON values as a list of strings. -/
def decodeStrings : List Json → Option (List String)
  | [] => some []
  | .str s :: rest => (decodeStrings rest).map (fun l => s :: l)
  | _ => none

/-- The JSON value `JSON.stringify` produces for one entry: its fields in
declaration order, with absent (undefined) optional fields dropped, exactly
as `JSON.stringify` drops undefined object properties. -/
def encodeEntry (d : DreamEntry) : Json :=
  Json.obj
    ([("id", Json.str d.id), ("timestamp", Json.num d.timestamp)] ++
      (match d.audioBase64 with
        | some au => [("audioBase64", Json.str au)]
        | none => []) ++
      [("transcription", Json.str d.transcription),
        ("tags", Json.arr (d.tags.map Json.str)),
        ("mood", Json.str d.mood),
        ("lucidityScore", Json.num d.lucidityScore),
        ("isProcessing", Json.bool d.isProcessing)] ++
      (match d.generatedImage with
        | some im => [("generatedImage", Json.str im)]
        | none => []))

/-- The persisted form of the whole store: the JSON array the save effect
(src/App.tsx lines 47-50) writes on every change of `dreams`. -/
def encodeDreams (ds : List DreamEntry) : Json :=
  Json.arr (ds.map encodeEntry)

/-- Read one entry back from its JSON value.  This is the typed rendering of
the unchecked `JSON.parse(saved)` cast of the load effect: it is defined
exactly on values that carry the `DreamEntry` shape. -/
def decodeEntry : Json → Option DreamEntry
  | .obj fields =>
    match lookupField fields "id", lookupField fields "timestamp",
        lookupField fields "transcription", lookupField fields "mood",
        lookupField fields "lucidityScore", lookupField fields "isProcessing",
        lookupField fields "tags" with
    | some (.str i), some (.num ts), some (.str tr), some (.str mo),
        some (.num lu), some (.bool pr), some (.arr tgj) =>
      (decodeStrings tgj).map fun tg =>
        { id := i, timestamp := ts,
          audioBase64 := (lookupField fields "audioBase64").bind asStr,
          transcription := tr, tags := tg, mood := mo,
          lucidityScore := lu, isProcessing := pr,
          generatedImage := (lookupField fields "generatedImage").bind asStr }
    | _, _, _, _, _, _, _ => none
  | _ => none

/-- Read an entry list back from a list of JSON values. -/
def decodeEntries : List Json → Option (List DreamEntry)
  | [] => some []
  | j :: rest =>
    match decodeEntry j with
    | some d => (decodeEntries rest).map (fun l => d :: l)
    | none => none

/-- Read the whole persisted collection back from its JSON value. -/
def decodeDreams : Json → Option (List DreamEntry)
  | .arr xs => decodeEntries xs
  | _ => none

/-- The load effect of src/App.tsx (lines 36-45).  The argument mirrors the
two guards of the effect: `none` is `localStorage.getItem` returning null
(the `if (saved)` guard fails, `dreams` stays `[]`); `some none` is stored
text on which `JSON.parse` throws (the catch branch only logs, `dreams`
stays `[]`); `some (some j)` is stored text parsing to the value `j`, which
the effect casts to the entry list — rendered here by `decodeEntry`. -/
def loadDreams : Option (Option Json) → Option (List DreamEntry)
  | none => some []
  | some none => some []
  | some (some j) => decodeDreams j

theorem decodeStrings_map (l : List String) :
    decodeStrings (l.map Json.str) = some l := by
  induction l with
  | nil => rfl
  | cons s rest ih => simp [decodeStrings, ih]

theorem decodeEntry_encodeEntry (d : DreamEntry) :
    decodeEntry (encodeEntry d) = some d := by
  obtain ⟨i, ts, au, tr, tg, mo, lu, pr, g⟩ := d
  cases au <;> cases g <;>
    · show (decodeStrings (tg.map Json.str)).map _ = _
      rw [decodeStrings_map]
      rfl

theorem decodeEntries_map (ds : List DreamEntry) :
    decodeEntries (ds.map encodeEntry) = some ds := by
  induction ds with
  | nil => rfl
  | cons d rest ih => simp [decodeEntries, decodeEntry_encodeEntry, ih]

/-- C3: persist-then-load is a round trip — serializing any entry collection
to its persisted JSON form and loading it back yields the same collection,
order and all fields preserved — and loading from absent or unparseable
persisted text yields the empty collection instead of a crash or a partial
state. -/
theorem persist_load_roundtrip (ds : List DreamEntry) :
    loadDreams (some (some (encodeDreams ds))) = some ds ∧
    loadDreams (some none) = some [] ∧
    loadDreams none = some [] := by
  refine ⟨?_, rfl, rfl⟩
  show decodeEntries (ds.map encodeEntry) = some ds
  exact decodeEntries_map ds

/-- In-memory store plus its persisted JSON form under `dream_journal`. -/
structure AppState where
  dreams : List DreamEntry
  storage : Json

/-- The save effect (src/App.tsx lines 47-50): after every change of
`dreams`, the effect synchronously writes `JSON.stringify(dreams)`, so every
observable post-mutation state carries the encoding of its own store. -/
def persisted (ds : List DreamEntry) : AppState := ⟨ds, encodeDreams ds⟩

/-- One store mutation of the app.  `record` is the optimistic insert of
`handleRecordingComplete` — its id is `Date.now().toString()` and its
freshness hypothesis embeds that a new recording completes at a millisecond
distinct from every recorded creation time already in the store (recordings
are seconds apart); `analysisDone` is the completion patch of the same
handler; `editEntry` is `handleUpdateDream` (transcription edits, tag edits,
illustration attach). -/
inductive Step : List DreamEntry → List DreamEntry → Prop where
  | record (ds : List DreamEntry) (tsId ts : Nat) (audio : String)
      (hfresh : ∀ d ∈ ds, d.id ≠ Nat.repr tsId) :
      Step ds (insertDream (mkNewDream (Nat.repr tsId) ts audio) ds)
  | analysisDone (ds : List DreamEntry) (i : String) (a : DreamAnalysisResult) :
      Step ds (applyAnalysis i a ds)
  | editEntry (ds : List DreamEntry) (u : DreamEntry) :
      Step ds (handleUpdateDream u ds)

/-- States the app can be in after its mount effects (the store's lifetime
starts empty) and any sequence of mutations, each followed by the
synchronous save effect. -/
inductive Reachable : AppState → Prop where
  | boot : Reachable (persisted [])
  | next {s : AppState} {ds2 : List DreamEntry} :
      Reachable s → Step s.dreams ds2 → Reachable (persisted ds2)

/-- C7: in every reachable state — i.e. after every mutation of the entry
collection (optimistic insert, analysis completion, update-by-id) — the
persisted JSON form equals the encoding of the in-memory collection: the
synchronous, unbatched write-through invariant. -/
theorem writeThrough_invariant (s : AppState) (h : Reachable s) :
    s.storage = encodeDreams s.dreams := by
  cases h with
  | boot => rfl
  | next _ _ => rfl

theorem map_id_applyAnalysis (i : String) (a : DreamAnalysisResult)
    (ds : List DreamEntry) :
    (applyAnalysis i a ds).map DreamEntry.id = ds.map DreamEntry.id := by
  induction ds with
  | nil => rfl
  | cons d rest ih =>
    simp only [applyAnalysis, List.map_cons] at ih ⊢
    by_cases h : d.id = i <;> simp [h, ih]

theorem map_id_handleUpdateDream (u : DreamEntry) (ds : List DreamEntry) :
    (handleUpdateDream u ds).map DreamEntry.id = ds.map DreamEntry.id := by
  induction ds with
  | nil => rfl
  | cons d rest ih =>
    simp only [handleUpdateDream, List.map_cons] at ih ⊢
    by_cases h : d.id = u.id <;> simp [h, ih]

/-- C8: id uniqueness is an invariant of the store for its whole lifetime —
in every reachable state no two entries share an id.  Each recorded session
contributes exactly one entry whose fresh id is assigned at creation time
(`record`'s freshness hypothesis); the analysis patch and update-by-id
preserve the id list exactly. -/
theorem id_uniqueness_invariant (s : AppState) (h : Reachable s) :
    (s.dreams.map DreamEntry.id).Nodup := by
  induction h with
  | boot => simp [persisted]
  | next hr hstep ih =>
    cases hstep with
    | record tsId ts audio hfresh =>
      simp only [persisted, insertDream, List.map_cons, List.nodup_cons]
      refine ⟨?_, ih⟩
      intro hmem
      obtain ⟨d, hd, e⟩ := List.mem_map.mp hmem
      exact hfresh d hd e
    | analysisDone i a =>
      simpa [persisted, map_id_applyAnalysis] using ih
    | editEntry u =>
      simpa [persisted, map_id_handleUpdateDream] using ih

/-- Concrete entry used to instantiate the theorems. -/
def entryA : DreamEntry :=
  { id := "1", timestamp := 10, audioBase64 := none,
    transcription := "flying over water", tags := ["Flying", "Water"],
    mood := "Calm", lucidityScore := 5, isProcessing := false,
    generatedImage := none }

/-- Concrete entry used to instantiate the theorems. -/
def entryB : DreamEntry :=
  { id := "2", timestamp := 20, audioBase64 := some "QUJD",
    transcription := "a dark forest", tags := ["Forest"],
    mood := "Uneasy", lucidityScore := 2, isProcessing := false,
    generatedImage := none }

/-- Concrete entry used to instantiate the theorems. -/
def entryC : DreamEntry :=
  { id := "3", timestamp := 11, audioBase64 := none,
    transcription := "chased again", tags := ["Chased", "Flying"],
    mood := "Fear", lucidityScore := 1, isProcessing := false,
    generatedImage := some "IMG" }

/-- Concrete date labelling used to instantiate the grouping theorem. -/
def labelW : Nat → String := fun n => if n < 15 then "Mon" else "Tue"

/-- Concrete analysis result used to instantiate the completion theorem. -/
def analysisW : DreamAnalysisResult :=
  { transcription := "a calm sea", tags := ["Sea"], mood := "Calm",
    lucidityScore := 7 }

/-- Witness for `groupDreams_spec` at concrete inputs. -/
theorem groupDreams_spec_witness :
    (DreamGroup.mk "Mon" [entryA, entryC]).dreams ≠ [] ∧
    (DreamGroup.mk "Mon" [entryA, entryC]).dreams =
      [entryA, entryB, entryC].filter
        (fun d => labelW d.timestamp ==
          (DreamGroup.mk "Mon" [entryA, entryC]).date) ∧
    (∃ g ∈ groupDreams labelW [entryA, entryB, entryC],
      g.date = labelW entryA.timestamp) :=
  ⟨(groupDreams_spec labelW [entryA, entryB, entryC]).1
      (DreamGroup.mk "Mon" [entryA, entryC]) (by decide),
   (groupDreams_spec labelW [entryA, entryB, entryC]).2.1
      (DreamGroup.mk "Mon" [entryA, entryC]) (by decide),
   (groupDreams_spec labelW [entryA, entryB, entryC]).2.2.1 entryA (by decide)⟩

/-- Witness for `handleRecordingComplete_spec` at concrete inputs. -/
theorem handleRecordingComplete_spec_witness :
    insertDream (mkNewDream "9" 30 "AUDIO") [entryA] =
      mkNewDream "9" 30 "AUDIO" :: [entryA] ∧
    (insertDream (mkNewDream "9" 30 "AUDIO") [entryA]).length =
      [entryA].length + 1 ∧
    (mkNewDream "9" 30 "AUDIO").isProcessing = true ∧
    mkNewDream "9" 30 "AUDIO" ∈
      insertDream (mkNewDream "9" 30 "AUDIO") [entryA] ∧
    applyAnalysis "9" analysisW
        (insertDream (mkNewDream "9" 30 "AUDIO") [entryA]) =
      { mkNewDream "9" 30 "AUDIO" with
        transcription := analysisW.transcription
        tags := analysisW.tags
        mood := analysisW.mood
        lucidityScore := analysisW.lucidityScore
        isProcessing := false } :: [entryA] :=
  handleRecordingComplete_spec "9" 30 "AUDIO" analysisW [entryA] (by decide)

/-- Witness for `handleUpdateDream_spec` at concrete inputs. -/
theorem handleUpdateDream_spec_witness :
    handleUpdateDream entryC [entryA, entryB] = [entryA, entryB] :=
  (handleUpdateDream_spec entryC [entryA, entryB] (by decide)).1 (by decide)

/-- Witness for `writeThrough_invariant` at a concrete reachable state. -/
theorem writeThrough_invariant_witness :
    (persisted (insertDream (mkNewDream (Nat.repr 5) 5 "QQ") [])).storage =
      encodeDreams
        (persisted (insertDream (mkNewDream (Nat.repr 5) 5 "QQ") [])).dreams :=
  writeThrough_invariant _
    (Reachable.next Reachable.boot (Step.record [] 5 5 "QQ" (by decide)))

/-- Witness for `id_uniqueness_invariant` at a concrete reachable state. -/
theorem id_uniqueness_invariant_witness :
    ((persisted (insertDream (mkNewDream (Nat.repr 7) 7 "RR")
        (insertDream (mkNewDream (Nat.repr 6) 6 "SS") []))).dreams.map
      DreamEntry.id).Nodup :=
  id_uniqueness_invariant _
    (Reachable.next
      (Reachable.next Reachable.boot (Step.record [] 6 6 "SS" (by decide)))
      (Step.record (insertDream (mkNewDream (Nat.repr 6) 6 "SS") []) 7 7 "RR"
        (by decide)))

/-- Witness for `tagOps_spec` at concrete inputs. -/
theorem tagOps_spec_witness :
    removeTag entryA "Lava" = entryA ∧
    (addTag entryA "Flying").tags = entryA.tags ++ ["Flying"] ∧
    (addTag entryA "Flying").tags.count "Flying" =
      entryA.tags.count "Flying" + 1 :=
  ⟨(tagOps_spec entryA "Lava").2.1 (by decide),
   (tagOps_spec entryA "Flying").2.2.1 (by decide),
   (tagOps_spec entryA "Flying").2.2.2 (by decide) (by decide)⟩

/-- Witness for `removeTag_all_spec` at concrete inputs. -/
theorem removeTag_all_spec_witness :
    (removeTag entryC "Flying").tags.count "Chased" =
      entryC.tags.count "Chased" :=
  (removeTag_all_spec entryC "Flying").2.2.2 "Chased" (by decide)
